import Mathlib

/-!
Verification of the build-specification resolver of `slidie` (`slidie/builds.py`).

The development shallowly embeds the resolver: layer names are `String`s
(processed as `List Char`), the per-stage atom/step types mirror the Python
type unions, fallible code returns `Except BuildError`, and the top-level
`evaluate_build_steps` composes the parsing front-ends with the four
resolution stages and the normaliser exactly as the source does.
-/

set_option linter.unusedVariables false
set_option maxRecDepth 100000

namespace Slidie

/-! ## Atomic step types (builds.py: "Atomic step type definitions") -/

/-- Atom of an unparsed build spec, mirroring
`InputAtom = BoundStep | NumericStep | AutoStep | TagStep`. -/
inductive InputAtom : Type
  | Num (n : Int)
  | Plus
  | Dot
  | Start
  | End
  | Tag (name : String)
  | TagSuffix (name : String) (suffix : String)
  deriving DecidableEq, Repr

/-- Atom after Stage 1, mirroring `Stage1Atom = BoundStep | NumericStep | TagStep`. -/
inductive Stage1Atom : Type
  | Num (n : Int)
  | Start
  | End
  | Tag (name : String)
  | TagSuffix (name : String) (suffix : String)
  deriving DecidableEq, Repr

/-- Atom after Stage 2, mirroring `Stage2Atom = BoundStep | NumericStep`. -/
inductive Stage2Atom : Type
  | Num (n : Int)
  | Start
  | End
  deriving DecidableEq, Repr

/-- A step: a single atom or an inclusive range between two atoms, mirroring
`T | Range[T]` in the Python union types. -/
inductive Step (α : Type) : Type
  | atom (a : α)
  | range (s e : α)
  deriving DecidableEq, Repr

abbrev InputStep := Step InputAtom
abbrev Stage1Step := Step Stage1Atom
abbrev Stage2Step := Step Stage2Atom
abbrev Stage3Step := Step Int

/-- The error conditions surfaced by the resolver.  `invalidStep` /
`unexpectedTagSuffix` model `InvalidStepError` / `UnexpectedTagSuffixError`;
`identifierNotFound` / `cyclicDependency` model the Stage-2 semantic errors
(with their optional layer-name fields populated by the orchestrator);
`notImplemented` models the `NotImplementedError` branch of
`resolve_tag_suffix`; `assertionFailed` models the `assert` statements in
`resolve_step_tag`; `internalError` models a `KeyError`/`ValueError` on the
(unreachable) empty-collection accesses; `fuelExhausted` is the recursion
bound of the embedded depth-first search. -/
inductive BuildError : Type
  | invalidStep (s : String)
  | unexpectedTagSuffix (s : String)
  | identifierNotFound (identifier : String) (layerIndex : Nat) (layerName : Option String)
  | cyclicDependency (layerIndices : List Nat) (layerNames : Option (List String))
  | notImplemented (suffix : String)
  | assertionFailed
  | internalError
  | fuelExhausted
  deriving DecidableEq, Repr

/-! ## Character-level utilities (Python `str` / `re` behaviour) -/

/-- Python's `\s` on the ASCII range (the inputs of interest are ASCII). -/
def pyIsSpace (c : Char) : Bool :=
  c = ' ' || c = '\t' || c = '\n' || c = '\r' || c = '\x0b' || c = '\x0c'

def isAsciiDigit (c : Char) : Bool :=
  '0' ≤ c && c ≤ '9'

/-- A character allowed in a tag label name: the `[^\s<>.@]` class of
`parse_tags`. -/
def isTagNameChar (c : Char) : Bool :=
  !(pyIsSpace c || c = '<' || c = '>' || c = '.' || c = '@')

/-- A Python `set` determinised as a list: keep the first occurrence of each
element. -/
def dedupFirst {α : Type} [DecidableEq α] : List α → List α
  | [] => []
  | x :: xs => x :: (dedupFirst xs).filter (fun y => y ≠ x)

/-- Python `str.strip()`. -/
def pyStrip (cs : List Char) : List Char :=
  ((cs.dropWhile pyIsSpace).reverse.dropWhile pyIsSpace).reverse

/-- Value of a `[0-9]+` literal. -/
def digitsToNat (cs : List Char) : Nat :=
  cs.foldl (fun acc c => acc * 10 + (c.toNat - 48)) 0

/-- `re.findall(r"<[^>]*>", ...)`, returning the contents between the
brackets: each match runs from a `<` to the first `>` after it. -/
def findBracketContents : List Char → Option (List Char) → List (List Char)
  | [], _ => []
  | c :: rest, none =>
    if c = '<' then findBracketContents rest (some [])
    else findBracketContents rest none
  | c :: rest, some acc =>
    if c = '>' then acc :: findBracketContents rest none
    else findBracketContents rest (some (acc ++ [c]))

/-- `re.sub(r"<[^>]+>", "", ...)`: every *non-empty* bracketed substring is
removed (the regex requires at least one character between `<` and `>`, so
the empty bracket `<>` is left in place). -/
def stripBracketsAux : List Char → Option (List Char) → List Char
  | [], none => []
  | [], some buf => '<' :: buf
  | c :: rest, none =>
    if c = '<' then stripBracketsAux rest (some [])
    else c :: stripBracketsAux rest none
  | c :: rest, some buf =>
    if c = '>' then
      if buf = [] then '<' :: '>' :: stripBracketsAux rest none
      else stripBracketsAux rest none
    else stripBracketsAux rest (some (buf ++ [c]))

def stripNonEmptyBrackets (cs : List Char) : List Char :=
  stripBracketsAux cs none

/-- The lookahead `(?=\s|@|$)` of the tag-label regex. -/
def terminatorOk : List Char → Bool
  | [] => true
  | c :: _ => pyIsSpace c || c = '@'

def dropWhileLengthLe (p : Char → Bool) (l : List Char) :
    (l.dropWhile p).length ≤ l.length := by
  induction l with
  | nil => simp [List.dropWhile]
  | cons c rest ih =>
    simp only [List.dropWhile]
    by_cases h : p c
    · simp only [h]
      exact Nat.le_succ_of_le ih
    · simp [h]

/-- `re.findall(r"@([^\s<>.@]+)(?=\s|@|$)", ...)`: scan left to right; at an
`@`, take the maximal run of name characters; the match succeeds iff the run
is non-empty and is followed by whitespace, `@` or end of string (backtracking
to a shorter run can never help, because every shorter terminator would be a
name character).  Scanning resumes after the captured name. -/
def scanTagsFrom : Nat → List Char → List String
  | 0, _ => []
  | _ + 1, [] => []
  | n + 1, c :: rest =>
    if c = '@' then
      if (rest.takeWhile isTagNameChar) ≠ [] ∧ terminatorOk (rest.dropWhile isTagNameChar) then
        String.mk (rest.takeWhile isTagNameChar) :: scanTagsFrom n (rest.dropWhile isTagNameChar)
      else
        scanTagsFrom n rest
    else
      scanTagsFrom n rest

def scanTags (cs : List Char) : List String :=
  scanTagsFrom cs.length cs

/-! ## Exception-aware traversals (Python exceptions abort the whole batch) -/

def exMapM {α β : Type} (f : α → Except BuildError β) : List α → Except BuildError (List β)
  | [] => .ok []
  | x :: xs =>
    match f x with
    | .error e => .error e
    | .ok y =>
      match exMapM f xs with
      | .error e => .error e
      | .ok ys => .ok (y :: ys)

def exFoldM {σ α : Type} (f : σ → α → Except BuildError σ) : σ → List α → Except BuildError σ
  | s, [] => .ok s
  | s, x :: xs =>
    match f s x with
    | .error e => .error e
    | .ok s' => exFoldM f s' xs

/-! ## Layer-name parsing (builds.py: `parse_build_specification_step`,
`parse_build_specification`, `parse_tags`) -/

def allowedSuffixes : List String := ["before", "start", "end", "after"]

/-- The `elif` chain of `parse_build_specification_step` after the tag-regex
branch failed: `"+"`, `"."`, the empty string (when a default is supplied),
`[0-9]+`, otherwise `InvalidStepError` (carrying the stripped string). -/
def parseStepFallback (s : List Char) (emptyValue : Option InputAtom) :
    Except BuildError InputAtom :=
  if s = ['+'] then .ok .Plus
  else if s = ['.'] then .ok .Dot
  else if s = [] then
    match emptyValue with
    | some v => .ok v
    | none => .error (.invalidStep (String.mk s))
  else if s.all isAsciiDigit then .ok (.Num (Int.ofNat (digitsToNat s)))
  else .error (.invalidStep (String.mk s))

/-- `parse_build_specification_step(step_str, empty_value)`: strip, try
`re.fullmatch(r"@[^\s]+", ...)` (then `str.partition "."` and the suffix
whitelist), else fall through the `elif` chain. -/
def parse_build_specification_step (stepStr : List Char) (emptyValue : Option InputAtom) :
    Except BuildError InputAtom :=
  match h : pyStrip stepStr with
  | '@' :: rest =>
    if rest ≠ [] ∧ rest.all (fun c => !pyIsSpace c) then
      match rest.dropWhile (fun c => c ≠ '.') with
      | '.' :: suffix =>
        if String.mk suffix ∈ allowedSuffixes then
          .ok (.TagSuffix (String.mk (rest.takeWhile (fun c => c ≠ '.'))) (String.mk suffix))
        else .error (.unexpectedTagSuffix (String.mk ('@' :: rest)))
      | _ => .ok (.Tag (String.mk rest))
    else parseStepFallback ('@' :: rest) emptyValue
  | s => parseStepFallback s emptyValue

/-- Python `str.split(",")` (keeps empty pieces, always at least one piece). -/
def splitOnComma : List Char → List (List Char)
  | [] => [[]]
  | c :: rest =>
    if c = ',' then [] :: splitOnComma rest
    else
      match splitOnComma rest with
      | g :: gs => (c :: g) :: gs
      | [] => [[c]]

/-- Python `str.partition("-")` restricted to the two sides. -/
def splitFirstDash : List Char → List Char × List Char
  | [] => ([], [])
  | c :: rest =>
    if c = '-' then ([], rest)
    else
      ((c :: (splitFirstDash rest).1), (splitFirstDash rest).2)

/-- One comma-separated piece of a bracket: a `-`-joined `Range` (empty sides
defaulting to `Start` / `End`) or a single atom. -/
def parseStepOrRange (piece : List Char) : Except BuildError InputStep :=
  if piece.contains '-' then
    match parse_build_specification_step (splitFirstDash piece).1 (some .Start) with
    | .error e => .error e
    | .ok a =>
      match parse_build_specification_step (splitFirstDash piece).2 (some .End) with
      | .error e => .error e
      | .ok b => .ok (.range a b)
  else
    match parse_build_specification_step piece none with
    | .error e => .error e
    | .ok a => .ok (.atom a)

/-- Contents of one `<...>` match: nothing when the stripped interior is
empty, otherwise the parsed comma-separated pieces. -/
def parseBracketContents (inner : List Char) : Except BuildError (List InputStep) :=
  if pyStrip inner = [] then .ok []
  else exMapM parseStepOrRange (splitOnComma (pyStrip inner))

/-- `parse_build_specification(layer_name)`: `None` when the name has no
`<...>` section at all, otherwise the concatenation of all brackets' parsed
steps. -/
def parse_build_specification (layerName : String) : Except BuildError (Option (List InputStep)) :=
  match findBracketContents layerName.toList none with
  | [] => .ok none
  | brackets =>
    match exMapM parseBracketContents brackets with
    | .error e => .error e
    | .ok specs => .ok (some specs.flatten)

/-- `parse_tags(layer_name)`: remove the (non-empty) bracketed substrings,
then scan for `@name` labels.  The Python `set` is modelled as a
first-occurrence-deduplicated list. -/
def parse_tags (layerName : String) : List String :=
  dedupFirst (scanTags (stripNonEmptyBrackets layerName.toList))

/-! ## Stage 1: automatic step numbers (builds.py: `resolve_step_auto`,
`get_first_numeric_step`, `resolve_autos`) -/

/-- Atom case of `resolve_step_auto`: `Plus() → last_number + 1`,
`Dot() → last_number`, everything else unchanged. -/
def resolve_atom_auto (a : InputAtom) (lastNumber : Int) : Stage1Atom :=
  match a with
  | .Plus => .Num (lastNumber + 1)
  | .Dot => .Num lastNumber
  | .Num n => .Num n
  | .Start => .Start
  | .End => .End
  | .Tag t => .Tag t
  | .TagSuffix t sfx => .TagSuffix t sfx

/-- `resolve_step_auto`: a `Range` recurses into both sides with the same
`last_number`. -/
def resolve_step_auto (st : InputStep) (lastNumber : Int) : Stage1Step :=
  match st with
  | .atom a => .atom (resolve_atom_auto a lastNumber)
  | .range s e => .range (resolve_atom_auto s lastNumber) (resolve_atom_auto e lastNumber)

/-- `get_first_numeric_step`: first positional numeric value, looking at a
`Range`'s start before its end, skipping non-numeric atoms. -/
def get_first_numeric_step : List Stage1Step → Option Int
  | [] => none
  | .atom (.Num n) :: _ => some n
  | .range (.Num s) _ :: _ => some s
  | .range _ (.Num e) :: _ => some e
  | _ :: rest => get_first_numeric_step rest

/-- The loop of `resolve_autos`, threading the `last_number` carry. -/
def resolveAutosFrom : List (List InputStep) → Int → List (List Stage1Step)
  | [], _ => []
  | spec :: rest, lastNumber =>
    (spec.map (fun st => resolve_step_auto st lastNumber)) ::
      resolveAutosFrom rest
        (match get_first_numeric_step (spec.map (fun st => resolve_step_auto st lastNumber)) with
         | some m => m
         | none => lastNumber)

/-- `resolve_autos`: the carry starts at 0. -/
def resolve_autos (layerSpecs : List (List InputStep)) : List (List Stage1Step) :=
  resolveAutosFrom layerSpecs 0

/-! ## Stage 2: tag references (builds.py: `iter_referenced_tags`,
`compute_tag_resolution_order`, `resolve_tag_suffix`, `resolve_step_tag`,
`resolve_tags`) -/

def atomReferencedTags : Stage1Atom → List String
  | .Tag t => [t]
  | .TagSuffix t _ => [t]
  | _ => []

/-- `iter_referenced_tags`: the tag names used anywhere in a spec (suffixes
dropped; a `Range` contributes its start's tags then its end's). -/
def iter_referenced_tags (steps : List Stage1Step) : List String :=
  steps.flatMap (fun st =>
    match st with
    | .atom a => atomReferencedTags a
    | .range s e => atomReferencedTags s ++ atomReferencedTags e)

/-- Same reading on the *input* (pre-Stage-1) spec; used to state claims
about the raw parsed specification. -/
def inputAtomReferencedTags : InputAtom → List String
  | .Tag t => [t]
  | .TagSuffix t _ => [t]
  | _ => []

def input_referenced_tags (steps : List InputStep) : List String :=
  steps.flatMap (fun st =>
    match st with
    | .atom a => inputAtomReferencedTags a
    | .range s e => inputAtomReferencedTags s ++ inputAtomReferencedTags e)

/-- `tag_to_indices[tag]`: the layer indices carrying `tag`, in ascending
order (a CPython set of small ints iterates ascending). -/
def tagToIndices (ltd : List (List String × List String)) (tag : String) : List Nat :=
  (List.range ltd.length).filter (fun i => tag ∈ (ltd.getD i ([], [])).1)

/-- Ordered insertion without duplicates (set-of-small-nats accumulation). -/
def insertAsc (x : Nat) : List Nat → List Nat
  | [] => [x]
  | y :: ys => if x < y then x :: y :: ys else if x = y then y :: ys else y :: insertAsc x ys

/-- Building `index_to_deps[i]`, checking every referenced tag exists
(`IdentifierNotFoundError` otherwise, with the referencing layer's index). -/
def layerDepIndices (ltd : List (List String × List String)) (i : Nat) :
    Except BuildError (List Nat) :=
  exFoldM
    (fun acc dep =>
      match tagToIndices ltd dep with
      | [] => .error (.identifierNotFound dep i none)
      | idxs => .ok (idxs.foldl (fun a j => insertAsc j a) acc))
    [] (ltd.getD i ([], [])).2

/-- `visited_indices.index(index)`. -/
def firstIdx : List Nat → Nat → Nat
  | [], _ => 0
  | y :: ys, x => if y = x then 0 else firstIdx ys x + 1

/-- The recursive `resolve` of `compute_tag_resolution_order`: depth-first
visit with the current path, reporting a cycle as the path from the first
occurrence of the repeated index through the repeat.  The recursion depth of
the source is bounded by the number of layers, modelled by explicit fuel. -/
def resolveOne (depIdx : List (List Nat)) :
    Nat → Nat → List Nat → List Nat → Except BuildError (List Nat)
  | 0, _, _, _ => .error .fuelExhausted
  | fuel + 1, index, visited, ordering =>
    if index ∈ ordering then .ok ordering
    else if index ∈ visited then
      .error (.cyclicDependency (visited.drop (firstIdx visited index) ++ [index]) none)
    else
      match exFoldM (fun ord dep => resolveOne depIdx fuel dep (visited ++ [index]) ord)
          ordering (depIdx.getD index []) with
      | .error e => .error e
      | .ok ord => .ok (ord ++ [index])

/-- `compute_tag_resolution_order(layer_tags_and_dependencies)`. -/
def compute_tag_resolution_order (ltd : List (List String × List String)) :
    Except BuildError (List Nat) :=
  match exMapM (fun i => layerDepIndices ltd i) (List.range ltd.length) with
  | .error e => .error e
  | .ok depIdx =>
    exFoldM (fun ord i => resolveOne depIdx (ltd.length + 1) i [] ord) [] (List.range ltd.length)

/-- Python `<` on `Stage2Atom`s: `Start()` sorts before every int and every
`End()`; `End()` sorts after everything; equal bounds are not `<`. -/
def s2lt : Stage2Atom → Stage2Atom → Bool
  | .Start, .Start => false
  | .Start, .Num _ => true
  | .Start, .End => true
  | .Num _, .Start => false
  | .Num a, .Num b => a < b
  | .Num _, .End => true
  | .End, _ => false

/-- Python `>` on `Stage2Atom`s. -/
def s2gt : Stage2Atom → Stage2Atom → Bool
  | .End, .End => false
  | .End, .Num _ => true
  | .End, .Start => true
  | .Num _, .End => false
  | .Num a, .Num b => b < a
  | .Num _, .Start => true
  | .Start, _ => false

/-- Python `min(...)` over a non-empty list: keep the earliest minimum. -/
def pymin (x : Stage2Atom) (xs : List Stage2Atom) : Stage2Atom :=
  xs.foldl (fun best item => if s2lt item best then item else best) x

/-- Python `max(...)` over a non-empty list: keep the earliest maximum. -/
def pymax (x : Stage2Atom) (xs : List Stage2Atom) : Stage2Atom :=
  xs.foldl (fun best item => if s2gt item best then item else best) x

/-- The flattening comprehension of `resolve_tag_suffix` / `resolve_bounds`:
a `Range` contributes its two endpoint atoms. -/
def flattenSpec (spec : List Stage2Step) : List Stage2Atom :=
  spec.flatMap (fun st =>
    match st with
    | .atom a => [a]
    | .range s e => [s, e])

/-- `resolve_tag_suffix(referenced_spec, suffix)`: `None` for an empty pool,
otherwise min/max arithmetic on the flattened pool; an unrecognised suffix
hits the "should be unreachable" `NotImplementedError` branch. -/
def resolve_tag_suffix (referencedSpec : List Stage2Step) (suffix : String) :
    Except BuildError (Option Stage2Atom) :=
  match referencedSpec with
  | [] => .ok none
  | _ =>
    match flattenSpec referencedSpec with
    | [] => .error .internalError
    | x :: xs =>
      if suffix = "start" then .ok (some (pymin x xs))
      else if suffix = "end" then .ok (some (pymax x xs))
      else if suffix = "before" then
        .ok (some (match pymin x xs with
                   | .Num n => .Num (n - 1)
                   | b => b))
      else if suffix = "after" then
        .ok (some (match pymax x xs with
                   | .Num n => .Num (n + 1)
                   | b => b))
      else .error (.notImplemented suffix)

/-- The incrementally built `resolved_tags` pool (`defaultdict(list)`). -/
abbrev TagMap := List (String × List Stage2Step)

def lookupTag (m : TagMap) (t : String) : List Stage2Step :=
  match m.lookup t with
  | some v => v
  | none => []

/-- `resolve_step_tag` on one side of a `Range`: a bare tag reference gets
the caller's default suffix (`start` for the left side, `end` for the
right); a suffixed reference resolves through `resolve_tag_suffix`; numeric
and bound atoms pass through as singletons. -/
def resolve_range_side (a : Stage1Atom) (resolvedTags : TagMap) (defaultSuffix : String) :
    Except BuildError (List Stage2Atom) :=
  match a with
  | .Tag t =>
    match resolve_tag_suffix (lookupTag resolvedTags t) defaultSuffix with
    | .error e => .error e
    | .ok (some r) => .ok [r]
    | .ok none => .ok []
  | .TagSuffix t sfx =>
    match resolve_tag_suffix (lookupTag resolvedTags t) sfx with
    | .error e => .error e
    | .ok (some r) => .ok [r]
    | .ok none => .ok []
  | .Num n => .ok [.Num n]
  | .Start => .ok [.Start]
  | .End => .ok [.End]

/-- `resolve_step_tag(step, resolved_tags)`: a bare tag substitutes the whole
pool; a suffixed tag at most one atom; a `Range` resolves both sides (with
implied `start`/`end` defaults), contributes nothing when either side is
empty, and `assert`s that non-empty sides have exactly one atom. -/
def resolve_step_tag (st : Stage1Step) (resolvedTags : TagMap) :
    Except BuildError (List Stage2Step) :=
  match st with
  | .atom (.Tag t) => .ok (lookupTag resolvedTags t)
  | .atom (.TagSuffix t sfx) =>
    match resolve_tag_suffix (lookupTag resolvedTags t) sfx with
    | .error e => .error e
    | .ok (some r) => .ok [.atom r]
    | .ok none => .ok []
  | .atom (.Num n) => .ok [.atom (.Num n)]
  | .atom .Start => .ok [.atom .Start]
  | .atom .End => .ok [.atom .End]
  | .range s e =>
    match resolve_range_side s resolvedTags "start" with
    | .error err => .error err
    | .ok ns =>
      match resolve_range_side e resolvedTags "end" with
      | .error err => .error err
      | .ok ne =>
        match ns, ne with
        | [], _ => .ok []
        | _, [] => .ok []
        | [s1], [e1] => .ok [.range s1 e1]
        | _, _ => .error .assertionFailed

/-- Extend the pool entry for `name` (append, creating the key if absent). -/
def assocExtend (m : TagMap) (name : String) (xs : List Stage2Step) : TagMap :=
  match m with
  | [] => [(name, xs)]
  | (k, v) :: rest =>
    if k = name then (k, v ++ xs) :: rest
    else (k, v) :: assocExtend rest name xs

def lookupResolved (m : List (Nat × List Stage2Step)) (i : Nat) : Option (List Stage2Step) :=
  match m with
  | [] => none
  | (k, v) :: rest => if k = i then some v else lookupResolved rest i

/-- The main loop of `resolve_tags`: process layers in resolution order,
resolving each spec against the current pool and then contributing the
resolved spec to the pool of every tag the layer carries. -/
def resolveTagsLoop (layerTags : List (List String)) (layerSpecs : List (List Stage1Step)) :
    List Nat → List (Nat × List Stage2Step) → TagMap →
    Except BuildError (List (Nat × List Stage2Step))
  | [], resolvedSpecs, _ => .ok resolvedSpecs
  | index :: rest, resolvedSpecs, resolvedTags =>
    match exMapM (fun st => resolve_step_tag st resolvedTags) (layerSpecs.getD index []) with
    | .error e => .error e
    | .ok parts =>
      resolveTagsLoop layerTags layerSpecs rest
        (resolvedSpecs ++ [(index, parts.flatten)])
        ((layerTags.getD index []).foldl
          (fun m name => assocExtend m name parts.flatten) resolvedTags)

/-- `resolve_tags(layer_tags, layer_specs)`. -/
def resolve_tags (layerTags : List (List String)) (layerSpecs : List (List Stage1Step)) :
    Except BuildError (List (List Stage2Step)) :=
  match compute_tag_resolution_order
      (layerTags.zip (layerSpecs.map (fun spec => dedupFirst (iter_referenced_tags spec)))) with
  | .error e => .error e
  | .ok order =>
    match resolveTagsLoop layerTags layerSpecs order [] [] with
    | .error e => .error e
    | .ok resolvedSpecs =>
      exMapM (fun i =>
          match lookupResolved resolvedSpecs i with
          | some s => .ok s
          | none => .error .internalError)
        (List.range layerTags.length)

/-! ## Stage 3: bounds (builds.py: `resolve_step_bound`, `resolve_bounds`) -/

def resolve_atom_bound (a : Stage2Atom) (resolvedStart resolvedEnd : Int) : Int :=
  match a with
  | .Start => resolvedStart
  | .End => resolvedEnd
  | .Num n => n

/-- `resolve_step_bound`: replace `Start`/`End`, recursing through ranges. -/
def resolve_step_bound (st : Stage2Step) (resolvedStart resolvedEnd : Int) : Stage3Step :=
  match st with
  | .atom a => .atom (resolve_atom_bound a resolvedStart resolvedEnd)
  | .range s e =>
    .range (resolve_atom_bound s resolvedStart resolvedEnd)
      (resolve_atom_bound e resolvedStart resolvedEnd)

/-- The numeric atoms appearing anywhere in the specs (ranges flattened to
their endpoints, bounds skipped). -/
def numericAtomsOf (layerSpecs : List (List Stage2Step)) : List Int :=
  layerSpecs.flatMap (fun spec =>
    (flattenSpec spec).filterMap (fun a =>
      match a with
      | .Num n => some n
      | _ => none))

/-- `all_numeric_atoms = [0] + [...]` of `resolve_bounds`. -/
def all_numeric_atoms (layerSpecs : List (List Stage2Step)) : List Int :=
  0 :: numericAtomsOf layerSpecs

/-- `start = min(all_numeric_atoms)`. -/
def resolvedStartOf (layerSpecs : List (List Stage2Step)) : Int :=
  (numericAtomsOf layerSpecs).foldl min 0

/-- `end = max(all_numeric_atoms)`. -/
def resolvedEndOf (layerSpecs : List (List Stage2Step)) : Int :=
  (numericAtomsOf layerSpecs).foldl max 0

/-- `resolve_bounds(layer_specs)`. -/
def resolve_bounds (layerSpecs : List (List Stage2Step)) : List (List Stage3Step) :=
  layerSpecs.map (fun spec =>
    spec.map (fun st =>
      resolve_step_bound st (resolvedStartOf layerSpecs) (resolvedEndOf layerSpecs)))

/-! ## Stage 4: ranges (builds.py: `resolve_ranges`) -/

/-- Python `range(s, e + 1)` as a list: the inclusive interval `s..e`, empty
when `e < s`. -/
def intRange (s e : Int) : List Int :=
  (List.range (e + 1 - s).toNat).map (fun (i : Nat) => s + (i : Int))

def resolveRangesSpec (spec : List Stage3Step) : List Int :=
  spec.flatMap (fun st =>
    match st with
    | .atom n => [n]
    | .range s e => intRange s e)

/-- `resolve_ranges(layer_specs)`. -/
def resolve_ranges (layerSpecs : List (List Stage3Step)) : List (List Int) :=
  layerSpecs.map resolveRangesSpec

/-! ## Normaliser and top-level orchestrator (builds.py: `normalise_specs`,
`evaluate_build_steps`) -/

/-- Python `sorted(set(spec))`: deduplicate, then sort ascending. -/
def normalise (l : List Int) : List Int :=
  (dedupFirst l).insertionSort (· ≤ ·)

def normalise_specs (layerSpecs : List (List Int)) : List (List Int) :=
  layerSpecs.map normalise

/-- `evaluate_build_steps(layer_names)`: parse every name, substitute
`[Range(Start(), End())]` for bracketless layers, run stages 1–4 and the
normaliser, rewrite semantic errors to carry the original layer names, and
restore `None` for layers whose raw name had no bracket. -/
def evaluate_build_steps (layerNames : List String) :
    Except BuildError (List (Option (List Int))) :=
  match exMapM parse_build_specification layerNames with
  | .error e => .error e
  | .ok inputLayerSpecs =>
    match resolve_tags (layerNames.map parse_tags)
        (resolve_autos (inputLayerSpecs.map (fun spec =>
          match spec with
          | some s => s
          | none => [Step.range InputAtom.Start InputAtom.End]))) with
    | .error (.identifierNotFound t i _) =>
      .error (.identifierNotFound t i (some (layerNames.getD i "")))
    | .error (.cyclicDependency idxs _) =>
      .error (.cyclicDependency idxs (some (idxs.map (fun i => layerNames.getD i ""))))
    | .error e => .error e
    | .ok s2 =>
      .ok (List.zipWith
        (fun inputSpec spec =>
          match inputSpec with
          | some _ => some spec
          | none => none)
        inputLayerSpecs
        (normalise_specs (resolve_ranges (resolve_bounds s2))))

/-! ## Claim-side definitions for the tag-label scanning claim

These follow the words of the specification, to be compared with the
code-derived `parse_tags` above. -/

/-- Bracket removal as the claim words it: remove every bracketed `<...>`
substring *including the empty bracket `<>`* (the `<[^>]*>` reading). -/
def claimStripBracketsAux : List Char → Option (List Char) → List Char
  | [], none => []
  | [], some buf => '<' :: buf
  | c :: rest, none =>
    if c = '<' then claimStripBracketsAux rest (some [])
    else c :: claimStripBracketsAux rest none
  | c :: rest, some buf =>
    if c = '>' then claimStripBracketsAux rest none
    else claimStripBracketsAux rest (some (buf ++ [c]))

def claimStripBrackets (cs : List Char) : List Char :=
  claimStripBracketsAux cs none

/-- The token the claim describes at one position: an `@` followed by a
non-empty maximal run of characters that are not whitespace and none of
`<>.@`, where the run is immediately followed by whitespace, another `@`, or
end-of-string. -/
def tokenHere (rest : List Char) : List String :=
  if (rest.takeWhile isTagNameChar) ≠ [] ∧ terminatorOk (rest.dropWhile isTagNameChar) then
    [String.mk (rest.takeWhile isTagNameChar)]
  else []

/-- The claim's declarative reading of label scanning: collect the token (if
any) starting at *every* position of the string. -/
def allTagTokens : List Char → List String
  | [] => []
  | c :: rest => (if c = '@' then tokenHere rest else []) ++ allTagTokens rest

/-- Tag labels exactly as the claim states them: tokens found after removing
every bracketed substring including the empty bracket. -/
def claimTagLabels (layerName : String) : List String :=
  dedupFirst (allTagTokens (claimStripBrackets layerName.toList))

/-- Tag labels as the amended claim states them: tokens found after removing
every *non-empty* bracketed substring (the empty bracket `<>` is not
removed). -/
def claimTagLabelsAmended (layerName : String) : List String :=
  dedupFirst (allTagTokens (stripNonEmptyBrackets layerName.toList))

/-! ## Parser-guaranteed well-formedness and benign errors

The parser only ever emits tag suffixes from the `before|start|end|after`
whitelist; these predicates record that invariant so that the "should be
unreachable" branches of Stage 2 can be proved unreachable. -/

def InputAtomWf : InputAtom → Prop
  | .TagSuffix _ sfx => sfx ∈ allowedSuffixes
  | _ => True

def Stage1AtomWf : Stage1Atom → Prop
  | .TagSuffix _ sfx => sfx ∈ allowedSuffixes
  | _ => True

def InputStepWf : InputStep → Prop
  | .atom a => InputAtomWf a
  | .range s e => InputAtomWf s ∧ InputAtomWf e

def Stage1StepWf : Stage1Step → Prop
  | .atom a => Stage1AtomWf a
  | .range s e => Stage1AtomWf s ∧ Stage1AtomWf e

/-- An error other than the "unreachable" `NotImplementedError` branch of
`resolve_tag_suffix` and the `assert` statements of `resolve_step_tag`. -/
def benignError (e : BuildError) : Prop :=
  (∀ u : String, e ≠ .notImplemented u) ∧ e ≠ .assertionFailed

/-! # Theorems -/

/-! ## Generic helper lemmas -/

theorem mem_dedupFirst {α : Type} [DecidableEq α] (a : α) (l : List α) :
    a ∈ dedupFirst l ↔ a ∈ l := by
  induction l with
  | nil => simp [dedupFirst]
  | cons x xs ih =>
    simp only [dedupFirst, List.mem_cons, List.mem_filter]
    constructor
    · rintro (rfl | ⟨h, _⟩)
      · exact .inl rfl
      · exact .inr (ih.mp h)
    · rintro (rfl | h)
      · exact .inl rfl
      · by_cases hx : a = x
        · exact .inl hx
        · exact .inr ⟨ih.mpr h, by simpa using hx⟩

theorem nodup_dedupFirst {α : Type} [DecidableEq α] (l : List α) :
    (dedupFirst l).Nodup := by
  induction l with
  | nil => simp [dedupFirst]
  | cons x xs ih =>
    simp only [dedupFirst, List.nodup_cons]
    refine ⟨fun h => ?_, ih.filter _⟩
    have := (List.mem_filter.mp h).2
    simp at this

/-! ## The label scanner agrees with the claim's declarative token reading -/

theorem allTagTokens_append_noAt (pre suf : List Char) (h : ∀ c ∈ pre, c ≠ '@') :
    allTagTokens (pre ++ suf) = allTagTokens suf := by
  induction pre with
  | nil => rfl
  | cons c rest ih =>
    have hc : c ≠ '@' := h c (List.mem_cons_self c rest)
    simp only [List.cons_append, allTagTokens, if_neg hc, List.nil_append]
    exact ih (fun x hx => h x (List.mem_cons_of_mem c hx))

theorem scanTags_eq_allTagTokens_aux :
    ∀ (n : Nat) (cs : List Char), cs.length ≤ n → scanTagsFrom n cs = allTagTokens cs := by
  intro n
  induction n with
  | zero =>
    intro cs h
    match cs with
    | [] => simp [scanTagsFrom, allTagTokens]
    | c :: rest => simp at h
  | succ n ih =>
    intro cs h
    match cs with
    | [] => simp [scanTagsFrom, allTagTokens]
    | c :: rest =>
      have hlen : rest.length ≤ n := by
        simp only [List.length_cons] at h
        omega
      rw [scanTagsFrom]
      by_cases hc : c = '@'
      · subst hc
        by_cases hm :
            (rest.takeWhile isTagNameChar) ≠ [] ∧ terminatorOk (rest.dropWhile isTagNameChar)
        · have hrest : allTagTokens rest = allTagTokens (rest.dropWhile isTagNameChar) := by
            conv_lhs => rw [← List.takeWhile_append_dropWhile isTagNameChar rest]
            refine allTagTokens_append_noAt _ _ (fun x hx => ?_)
            have hchar := List.mem_takeWhile_imp hx
            intro hxeq
            subst hxeq
            simp [isTagNameChar, pyIsSpace] at hchar
          have hdrop : (rest.dropWhile isTagNameChar).length ≤ n :=
            le_trans (dropWhileLengthLe _ _) hlen
          rw [if_pos rfl, if_pos hm, ih _ hdrop]
          conv_rhs => rw [allTagTokens]
          rw [if_pos rfl]
          simp only [tokenHere]
          rw [if_pos hm, hrest]
          rfl
        · rw [if_pos rfl, if_neg hm]
          simp only [allTagTokens, if_pos rfl, tokenHere, if_neg hm, List.nil_append]
          exact ih rest hlen
      · rw [if_neg hc]
        simp only [allTagTokens, if_neg hc, List.nil_append]
        exact ih rest hlen

theorem scanTags_eq_allTagTokens (cs : List Char) : scanTags cs = allTagTokens cs :=
  scanTags_eq_allTagTokens_aux cs.length cs le_rfl

theorem scanTagsFrom_fuel_irrelevant (n : Nat) (cs : List Char) (h : cs.length ≤ n) :
    scanTagsFrom n cs = scanTags cs := by
  rw [scanTags_eq_allTagTokens_aux n cs h, ← scanTags_eq_allTagTokens]

/-- **C4, counterexample.**  The claim says labels are scanned after removing
every bracketed substring *including an empty bracket `<>`*.  The code's
`parse_tags` removes brackets with `re.sub(r"<[^>]+>", "", ...)`, which does
not match `<>`: on the layer name `"@foo<>"` the code returns no labels at
all, while the claim's reading (remove `<>`, then scan `@foo` at
end-of-string) yields the label `foo`. -/
theorem c4_counterexample :
    parse_tags "@foo<>" = [] ∧ claimTagLabels "@foo<>" = ["foo"] := by
  constructor <;> rfl

/-- **C4, amended.**  For every layer-name string, the tag labels returned by
`parse_tags` are exactly the tokens of the form `@name` found after first
removing every *non-empty* bracketed `<...>` substring (an empty bracket `<>`
is not removed), where `name` is non-empty, contains no whitespace and none
of `<`, `>`, `.`, `@`, and is immediately followed by whitespace, another
`@`, or end-of-string; in particular `@foo@bar` yields the two labels `foo`
and `bar`, and an `@`-token inside a (non-empty) bracket is never reported as
a label. -/
theorem c4_tag_label_scanning :
    (∀ s : String, parse_tags s = claimTagLabelsAmended s) ∧
    parse_tags "@foo@bar" = ["foo", "bar"] ∧
    parse_tags "x <@foo>" = [] := by
  refine ⟨fun s => ?_, rfl, rfl⟩
  unfold parse_tags claimTagLabelsAmended
  rw [scanTags_eq_allTagTokens]

/-! ## End-to-end and per-stage claims -/

/-- **C1.**  The end-to-end scenario: the top-level resolver on
`["A <2> @foo", "B <+>", "C <@foo>", "D <->", "E @bar", "F <@bar>"]` returns
`[2]`, `[3]`, `[2]`, `[0,1,2,3]`, `None`, `[0,1,2,3]` in order; layer A
carries tag set `{foo}` and layer E tag set `{bar}`.  E has no bracket, so it
reports `None` even though F inherits the full deck range through tag
`bar`. -/
theorem c1_end_to_end_scenario :
    evaluate_build_steps ["A <2> @foo", "B <+>", "C <@foo>", "D <->", "E @bar", "F <@bar>"] =
      .ok [some [2], some [3], some [2], some [0, 1, 2, 3], none, some [0, 1, 2, 3]] ∧
    parse_tags "A <2> @foo" = ["foo"] ∧
    parse_tags "E @bar" = ["bar"] :=
  ⟨rfl, rfl, rfl⟩

/-- **C2.**  Cycle detection: `["A <@b> @a", "B <@c> @b", "C <@a> @c"]`
raises a cyclic-dependency error (no result) whose index chain is exactly
`[0, 1, 2, 0]` and whose orchestrator-filled name chain is
`["A <@b> @a", "B <@c> @b", "C <@a> @c", "A <@b> @a"]`. -/
theorem c2_cycle_detection :
    evaluate_build_steps ["A <@b> @a", "B <@c> @b", "C <@a> @c"] =
      .error (.cyclicDependency [0, 1, 2, 0]
        (some ["A <@b> @a", "B <@c> @b", "C <@a> @c", "A <@b> @a"])) :=
  rfl

/-- **C5.**  Auto-number resolution: the carry starts at 0; in each layer
every `Plus` becomes `last_number + 1` and every `Dot` becomes
`last_number`, both sides of a range resolving against the same pre-layer
snapshot; afterwards the carry is updated to the first numeric value of the
resolved spec (diving into a range's start before its end, skipping tag and
bound atoms) when one exists; and the full pipeline on
`["<+>", "<.>", "<.>", "<+>"]` yields `[1], [1], [1], [2]`. -/
theorem c5_auto_numbering :
    (∀ specs : List (List InputStep), resolve_autos specs = resolveAutosFrom specs 0) ∧
    (∀ (spec : List InputStep) (rest : List (List InputStep)) (n : Int),
      resolveAutosFrom (spec :: rest) n =
        (spec.map (fun st => resolve_step_auto st n)) ::
          resolveAutosFrom rest
            (match get_first_numeric_step (spec.map (fun st => resolve_step_auto st n)) with
             | some m => m
             | none => n)) ∧
    (∀ n : Int, resolve_step_auto (.atom .Plus) n = .atom (.Num (n + 1))) ∧
    (∀ n : Int, resolve_step_auto (.atom .Dot) n = .atom (.Num n)) ∧
    (∀ (a b : InputAtom) (n : Int),
      resolve_step_auto (.range a b) n = .range (resolve_atom_auto a n) (resolve_atom_auto b n)) ∧
    (∀ (n : Int) (rest : List Stage1Step),
      get_first_numeric_step (.atom (.Num n) :: rest) = some n) ∧
    (∀ (s : Int) (e : Stage1Atom) (rest : List Stage1Step),
      get_first_numeric_step (.range (.Num s) e :: rest) = some s) ∧
    (∀ (t : String) (e : Int) (rest : List Stage1Step),
      get_first_numeric_step (.range (.Tag t) (.Num e) :: rest) = some e) ∧
    (∀ (t : String) (rest : List Stage1Step),
      get_first_numeric_step (.atom (.Tag t) :: rest) = get_first_numeric_step rest) ∧
    (∀ (t sfx : String) (rest : List Stage1Step),
      get_first_numeric_step (.atom (.TagSuffix t sfx) :: rest) = get_first_numeric_step rest) ∧
    (∀ rest : List Stage1Step,
      get_first_numeric_step (.atom .Start :: rest) = get_first_numeric_step rest) ∧
    (∀ rest : List Stage1Step,
      get_first_numeric_step (.atom .End :: rest) = get_first_numeric_step rest) ∧
    evaluate_build_steps ["<+>", "<.>", "<.>", "<+>"] =
      .ok [some [1], some [1], some [1], some [2]] :=
  ⟨fun _ => rfl, fun _ _ _ => rfl, fun _ => rfl, fun _ => rfl, fun _ _ _ => rfl,
   fun _ _ => rfl, fun s e rest => by cases e <;> rfl, fun _ _ _ => rfl, fun _ _ => rfl,
   fun _ _ _ => rfl, fun _ => rfl, fun _ => rfl, rfl⟩

/-- **C6.**  Suffixed tag substitution: the pool is flattened (a range
contributes its two endpoint atoms); `.start` yields its minimum, `.end` its
maximum, `.before` the minimum minus one when numeric (a bound unchanged
otherwise), `.after` the maximum plus one when numeric (unchanged
otherwise); `Start` compares below every integer and `End` above; an empty
pool resolves to nothing rather than erroring.  For a pool resolving to
`[2, 4, 7, 10]`: `.start` → 2, `.end` → 10, `.before` → 1, `.after` → 11. -/
theorem c6_suffix_arithmetic :
    resolve_tag_suffix [.atom (.Num 2), .atom (.Num 4), .atom (.Num 7), .atom (.Num 10)]
        "start" = .ok (some (.Num 2)) ∧
    resolve_tag_suffix [.atom (.Num 2), .atom (.Num 4), .atom (.Num 7), .atom (.Num 10)]
        "end" = .ok (some (.Num 10)) ∧
    resolve_tag_suffix [.atom (.Num 2), .atom (.Num 4), .atom (.Num 7), .atom (.Num 10)]
        "before" = .ok (some (.Num 1)) ∧
    resolve_tag_suffix [.atom (.Num 2), .atom (.Num 4), .atom (.Num 7), .atom (.Num 10)]
        "after" = .ok (some (.Num 11)) ∧
    (∀ sfx : String, resolve_tag_suffix [] sfx = .ok none) ∧
    (∀ (t sfx : String), resolve_step_tag (.atom (.TagSuffix t sfx)) [] = .ok []) ∧
    (∀ (s e : Stage2Atom) (rest : List Stage2Step),
      flattenSpec (.range s e :: rest) = s :: e :: flattenSpec rest) ∧
    (∀ (a : Stage2Atom) (rest : List Stage2Step),
      flattenSpec (.atom a :: rest) = a :: flattenSpec rest) ∧
    (∀ (st : Stage2Step) (rest : List Stage2Step), ∃ x xs,
      flattenSpec (st :: rest) = x :: xs ∧
      resolve_tag_suffix (st :: rest) "start" = .ok (some (pymin x xs)) ∧
      resolve_tag_suffix (st :: rest) "end" = .ok (some (pymax x xs)) ∧
      resolve_tag_suffix (st :: rest) "before" =
        .ok (some (match pymin x xs with
                   | .Num n => .Num (n - 1)
                   | b => b)) ∧
      resolve_tag_suffix (st :: rest) "after" =
        .ok (some (match pymax x xs with
                   | .Num n => .Num (n + 1)
                   | b => b))) ∧
    (∀ n : Int, s2lt .Start (.Num n) = true ∧ s2lt (.Num n) .End = true ∧
      s2lt (.Num n) .Start = false ∧ s2lt .End (.Num n) = false) ∧
    s2lt .Start .Start = false ∧ s2lt .End .End = false ∧ s2lt .Start .End = true ∧
    resolve_tag_suffix [.atom .Start] "before" = .ok (some .Start) ∧
    resolve_tag_suffix [.atom .End] "after" = .ok (some .End) := by
  refine ⟨rfl, rfl, rfl, rfl, fun _ => rfl, fun _ _ => rfl, fun _ _ _ => rfl, fun _ _ => rfl,
    fun st rest => ?_, fun _ => ⟨rfl, rfl, rfl, rfl⟩, rfl, rfl, rfl, rfl, rfl⟩
  cases st with
  | atom a => exact ⟨a, flattenSpec rest, rfl, rfl, rfl, rfl, rfl⟩
  | range s e => exact ⟨s, e :: flattenSpec rest, rfl, rfl, rfl, rfl, rfl⟩

/-- **C8.**  Range expansion: `Range(start, end)` becomes the inclusive
sequence `start..end`; when `end < start` it contributes the empty sequence
without error; non-range atoms pass through unchanged; `<3-5>` resolves to
exactly `{3,4,5}` and `<5-3>` to the empty set. -/
theorem c8_range_expansion :
    (∀ s e x : Int, x ∈ intRange s e ↔ s ≤ x ∧ x ≤ e) ∧
    (∀ s e : Int, e < s → intRange s e = []) ∧
    (∀ (n : Int) (rest : List Stage3Step),
      resolveRangesSpec (.atom n :: rest) = n :: resolveRangesSpec rest) ∧
    (∀ (s e : Int) (rest : List Stage3Step),
      resolveRangesSpec (.range s e :: rest) = intRange s e ++ resolveRangesSpec rest) ∧
    evaluate_build_steps ["<3-5>"] = .ok [some [3, 4, 5]] ∧
    evaluate_build_steps ["<5-3>"] = .ok [some []] := by
  refine ⟨fun s e x => ?_, fun s e h => ?_, fun _ _ => rfl, fun _ _ _ => rfl, rfl, rfl⟩
  · unfold intRange
    rw [List.mem_map]
    constructor
    · rintro ⟨i, hi, h⟩
      rw [List.mem_range] at hi
      omega
    · rintro ⟨h1, h2⟩
      exact ⟨(x - s).toNat, List.mem_range.mpr (by omega), by omega⟩
  · have h0 : (e + 1 - s).toNat = 0 := by omega
    simp [intRange, h0]

/-- Witness for the hypothesis-bearing part of the range-expansion claim. -/
theorem c8_range_expansion_witness :
    intRange 5 3 = [] ∧ (4 ∈ intRange 3 5 ↔ 3 ≤ (4 : Int) ∧ (4 : Int) ≤ 5) :=
  ⟨c8_range_expansion.2.1 5 3 (by decide), c8_range_expansion.1 3 5 4⟩

/-! ## Folded min/max facts for the bound resolver -/

theorem foldl_min_le_init : ∀ (l : List Int) (a : Int), l.foldl min a ≤ a := by
  intro l
  induction l with
  | nil => intro a; simp
  | cons y ys ih =>
    intro a
    simp only [List.foldl_cons]
    exact le_trans (ih (min a y)) (min_le_left a y)

theorem foldl_min_le_mem : ∀ (l : List Int) (a x : Int), x ∈ l → l.foldl min a ≤ x := by
  intro l
  induction l with
  | nil => intro a x h; simp at h
  | cons y ys ih =>
    intro a x h
    rcases List.mem_cons.mp h with rfl | h'
    · simp only [List.foldl_cons]
      exact le_trans (foldl_min_le_init ys (min a x)) (min_le_right a x)
    · exact ih (min a y) x h'

theorem foldl_max_init_le : ∀ (l : List Int) (a : Int), a ≤ l.foldl max a := by
  intro l
  induction l with
  | nil => intro a; simp
  | cons y ys ih =>
    intro a
    simp only [List.foldl_cons]
    exact le_trans (le_max_left a y) (ih (max a y))

theorem foldl_max_mem_le : ∀ (l : List Int) (a x : Int), x ∈ l → x ≤ l.foldl max a := by
  intro l
  induction l with
  | nil => intro a x h; simp at h
  | cons y ys ih =>
    intro a x h
    rcases List.mem_cons.mp h with rfl | h'
    · simp only [List.foldl_cons]
      exact le_trans (le_max_right a x) (foldl_max_init_le ys (max a x))
    · exact ih (max a y) x h'

/-- **C7.**  Bound resolution: `resolved_start` / `resolved_end` are the
minimum / maximum over `0` together with every numeric atom appearing in any
layer's Stage-2 spec (ranges flattened to endpoints); every `Start` becomes
`resolved_start` and every `End` becomes `resolved_end`, recursively through
ranges.  The deck `["", "<99>"]` resolves to `[None, [99]]`, and `"<->"` in
a deck whose only literal step is 99 resolves to `[0..99]`. -/
theorem c7_bound_resolution :
    (∀ specs : List (List Stage2Step),
      resolve_bounds specs = specs.map (fun spec => spec.map (fun st =>
        resolve_step_bound st (resolvedStartOf specs) (resolvedEndOf specs)))) ∧
    (∀ specs : List (List Stage2Step), 0 ∈ all_numeric_atoms specs) ∧
    (∀ (specs : List (List Stage2Step)) (n : Int), n ∈ all_numeric_atoms specs →
      resolvedStartOf specs ≤ n ∧ n ≤ resolvedEndOf specs) ∧
    (∀ a b : Int, resolve_step_bound (.atom .Start) a b = .atom a) ∧
    (∀ a b : Int, resolve_step_bound (.atom .End) a b = .atom b) ∧
    (∀ n a b : Int, resolve_step_bound (.atom (.Num n)) a b = .atom n) ∧
    (∀ (s e : Stage2Atom) (a b : Int),
      resolve_step_bound (.range s e) a b =
        .range (resolve_atom_bound s a b) (resolve_atom_bound e a b)) ∧
    evaluate_build_steps ["", "<99>"] = .ok [none, some [99]] ∧
    evaluate_build_steps ["<->", "<99>"] =
      .ok [some ((List.range 100).map (fun (i : Nat) => (i : Int))), some [99]] := by
  refine ⟨fun _ => rfl, fun specs => List.mem_cons_self 0 _, fun specs n hn => ?_,
    fun _ _ => rfl, fun _ _ => rfl, fun _ _ _ => rfl, fun _ _ _ _ => rfl, rfl, rfl⟩
  rcases List.mem_cons.mp hn with rfl | h'
  · exact ⟨foldl_min_le_init _ _, foldl_max_init_le _ _⟩
  · exact ⟨foldl_min_le_mem _ _ _ h', foldl_max_mem_le _ _ _ h'⟩

/-- Witness for the hypothesis-bearing part of the bound-resolution claim. -/
theorem c7_bound_resolution_witness :
    resolvedStartOf [[Step.atom (Stage2Atom.Num 5)]] ≤ 5 ∧
      (5 : Int) ≤ resolvedEndOf [[Step.atom (Stage2Atom.Num 5)]] :=
  c7_bound_resolution.2.2.1 [[Step.atom (Stage2Atom.Num 5)]] 5 (by decide)

/-! ## Indexed access and traversal lemmas -/

theorem getD_map {α β : Type} (f : α → β) :
    ∀ (l : List α) (i : Nat) (d : α) (d' : β), i < l.length →
      (l.map f).getD i d' = f (l.getD i d) := by
  intro l
  induction l with
  | nil => intro i d d' h; simp at h
  | cons x xs ih =>
    intro i d d' h
    cases i with
    | zero => rfl
    | succ j =>
      simp only [List.map_cons, List.getD_cons_succ]
      exact ih j d d' (by simpa using h)

theorem getD_zipWith {α β γ : Type} (f : α → β → γ) :
    ∀ (l1 : List α) (l2 : List β) (i : Nat) (d1 : α) (d2 : β) (d3 : γ),
      i < l1.length → i < l2.length →
      (List.zipWith f l1 l2).getD i d3 = f (l1.getD i d1) (l2.getD i d2) := by
  intro l1
  induction l1 with
  | nil => intro l2 i d1 d2 d3 h1 h2; simp at h1
  | cons x xs ih =>
    intro l2 i d1 d2 d3 h1 h2
    cases l2 with
    | nil => simp at h2
    | cons y ys =>
      cases i with
      | zero => rfl
      | succ j =>
        simp only [List.zipWith_cons_cons, List.getD_cons_succ]
        exact ih ys j d1 d2 d3 (by simpa using h1) (by simpa using h2)

theorem exMapM_ok_length {α β : Type} (f : α → Except BuildError β) :
    ∀ (l : List α) (r : List β), exMapM f l = .ok r → r.length = l.length := by
  intro l
  induction l with
  | nil =>
    intro r h
    simp only [exMapM] at h
    cases h
    rfl
  | cons x xs ih =>
    intro r h
    simp only [exMapM] at h
    cases hx : f x with
    | error e => rw [hx] at h; cases h
    | ok y =>
      rw [hx] at h
      cases hxs : exMapM f xs with
      | error e => rw [hxs] at h; cases h
      | ok ys =>
        rw [hxs] at h
        cases h
        simp [ih ys hxs]

theorem exMapM_ok_getD {α β : Type} (f : α → Except BuildError β) (d : α) (d' : β) :
    ∀ (l : List α) (r : List β), exMapM f l = .ok r →
      ∀ i : Nat, i < l.length → f (l.getD i d) = .ok (r.getD i d') := by
  intro l
  induction l with
  | nil => intro r h i hi; simp at hi
  | cons x xs ih =>
    intro r h i hi
    simp only [exMapM] at h
    cases hx : f x with
    | error e => rw [hx] at h; cases h
    | ok y =>
      rw [hx] at h
      cases hxs : exMapM f xs with
      | error e => rw [hxs] at h; cases h
      | ok ys =>
        rw [hxs] at h
        cases h
        cases i with
        | zero => exact hx
        | succ j => exact ih ys hxs j (by simpa using hi)

theorem resolve_tags_ok_length (layerTags : List (List String))
    (layerSpecs : List (List Stage1Step)) (r : List (List Stage2Step))
    (h : resolve_tags layerTags layerSpecs = .ok r) : r.length = layerTags.length := by
  unfold resolve_tags at h
  split at h
  · cases h
  · split at h
    · cases h
    · have := exMapM_ok_length _ _ _ h
      simpa using this

/-- Destructuring a successful run of the orchestrator. -/
theorem evaluate_ok_destruct (names : List String) (out : List (Option (List Int)))
    (h : evaluate_build_steps names = .ok out) :
    ∃ ispecs s2,
      exMapM parse_build_specification names = .ok ispecs ∧
      resolve_tags (names.map parse_tags)
        (resolve_autos (ispecs.map (fun spec =>
          match spec with
          | some s => s
          | none => [Step.range InputAtom.Start InputAtom.End]))) = .ok s2 ∧
      out = List.zipWith
        (fun inputSpec spec =>
          match inputSpec with
          | some _ => some spec
          | none => none)
        ispecs (normalise_specs (resolve_ranges (resolve_bounds s2))) := by
  unfold evaluate_build_steps at h
  split at h
  · cases h
  · rename_i ispecs hp
    split at h
    · cases h
    · cases h
    · cases h
    · rename_i s2 hr
      exact ⟨ispecs, s2, hp, hr, (Except.ok.inj h).symm⟩

/-! ## The normaliser produces sorted, duplicate-free lists -/

theorem normalise_sorted (l : List Int) : (normalise l).Sorted (· ≤ ·) :=
  List.sorted_insertionSort (· ≤ ·) (dedupFirst l)

theorem normalise_nodup (l : List Int) : (normalise l).Nodup :=
  (List.perm_insertionSort (· ≤ ·) (dedupFirst l)).symm.nodup (nodup_dedupFirst l)

/-- **C9.**  Whenever resolution succeeds, the output has the same length and
order as the input; a layer whose raw name contains no bracketed section
reports `none`, while a layer with at least one bracket — even an empty
`<>` — reports a concrete sorted, duplicate-free integer list (possibly
empty); `"plain name"` yields `none`, `"name <>"` yields `some []`, and
these never compare equal. -/
theorem c9_none_vs_empty :
    (∀ (names : List String) (out : List (Option (List Int))),
      evaluate_build_steps names = .ok out →
      out.length = names.length ∧
      ∀ i : Nat, i < names.length →
        ((out.getD i none = none ↔
          parse_build_specification (names.getD i "") = .ok none) ∧
         (∀ l : List Int, out.getD i none = some l → l.Sorted (· ≤ ·) ∧ l.Nodup))) ∧
    evaluate_build_steps ["plain name"] = .ok [none] ∧
    evaluate_build_steps ["name <>"] = .ok [some []] ∧
    (none : Option (List Int)) ≠ some [] := by
  refine ⟨fun names out h => ?_, rfl, rfl, by simp⟩
  obtain ⟨ispecs, s2, hp, hr, hout⟩ := evaluate_ok_destruct names out h
  have hlen_ispecs : ispecs.length = names.length := exMapM_ok_length _ _ _ hp
  have hlen_s2 : s2.length = names.length := by
    have := resolve_tags_ok_length _ _ _ hr
    simpa using this
  have hlen_final :
      (normalise_specs (resolve_ranges (resolve_bounds s2))).length = names.length := by
    simp [normalise_specs, resolve_ranges, resolve_bounds, hlen_s2]
  constructor
  · rw [hout]
    simp [List.length_zipWith, hlen_ispecs, hlen_final]
  · intro i hi
    have hi1 : i < ispecs.length := by omega
    have hi2 : i < (normalise_specs (resolve_ranges (resolve_bounds s2))).length := by omega
    have hacc := getD_zipWith
      (fun (inputSpec : Option (List InputStep)) (spec : List Int) =>
        match inputSpec with
        | some _ => some spec
        | none => none)
      ispecs (normalise_specs (resolve_ranges (resolve_bounds s2))) i none [] none hi1 hi2
    rw [hout, hacc]
    have hparse := exMapM_ok_getD parse_build_specification "" none names ispecs hp i hi
    constructor
    · cases hin : ispecs.getD i none with
      | none =>
        constructor
        · intro _
          rw [hparse, hin]
        · intro _
          rfl
      | some s =>
        constructor
        · intro hcontra
          exact Option.noConfusion hcontra
        · intro hnone
          rw [hparse, hin] at hnone
          exact Option.noConfusion (Except.ok.inj hnone)
    · intro l hl
      cases hin : ispecs.getD i none with
      | none =>
        rw [hin] at hl
        exact Option.noConfusion hl
      | some s =>
        rw [hin] at hl
        have hl' : (normalise_specs (resolve_ranges (resolve_bounds s2))).getD i [] = l :=
          Option.some.inj hl
        have hmap : (normalise_specs (resolve_ranges (resolve_bounds s2))).getD i [] =
            normalise ((resolve_ranges (resolve_bounds s2)).getD i []) := by
          unfold normalise_specs
          exact getD_map normalise _ i [] [] (by
            have : i < (resolve_ranges (resolve_bounds s2)).length := by
              simp [resolve_ranges, resolve_bounds, hlen_s2]; omega
            exact this)
        rw [hmap] at hl'
        rw [← hl']
        exact ⟨normalise_sorted _, normalise_nodup _⟩

/-- Witness for the hypothesis-bearing part of the `None`-vs-empty claim. -/
theorem c9_none_vs_empty_witness :
    ([some []] : List (Option (List Int))).length = ["name <>"].length ∧
    (([some []] : List (Option (List Int))).getD 0 none = none ↔
      parse_build_specification "name <>" = .ok none) :=
  have h := c9_none_vs_empty.1 ["name <>"] [some []] c9_none_vs_empty.2.2.1
  ⟨h.1, (h.2 0 (by decide)).1⟩

/-! ## Error-propagation lemmas for the Stage-2 ordering computation -/

theorem exMapM_ok_forall {α β : Type} (f : α → Except BuildError β) :
    ∀ (l : List α) (r : List β), exMapM f l = .ok r → ∀ x ∈ l, ∃ y, f x = .ok y := by
  intro l
  induction l with
  | nil => intro r h x hx; simp at hx
  | cons z zs ih =>
    intro r h x hx
    simp only [exMapM] at h
    cases hz : f z with
    | error e => rw [hz] at h; cases h
    | ok y =>
      rw [hz] at h
      cases hzs : exMapM f zs with
      | error e => rw [hzs] at h; cases h
      | ok ys =>
        rcases List.mem_cons.mp hx with rfl | hx'
        · exact ⟨y, hz⟩
        · exact ih ys hzs x hx'

theorem exMapM_error_mem {α β : Type} (f : α → Except BuildError β) :
    ∀ (l : List α) (e : BuildError), exMapM f l = .error e → ∃ x ∈ l, f x = .error e := by
  intro l
  induction l with
  | nil => intro e h; simp only [exMapM] at h; cases h
  | cons z zs ih =>
    intro e h
    simp only [exMapM] at h
    cases hz : f z with
    | error e' =>
      rw [hz] at h
      cases h
      exact ⟨z, List.mem_cons_self z zs, hz⟩
    | ok y =>
      rw [hz] at h
      cases hzs : exMapM f zs with
      | error e' =>
        rw [hzs] at h
        cases h
        obtain ⟨x, hx, hfx⟩ := ih e hzs
        exact ⟨x, List.mem_cons_of_mem z hx, hfx⟩
      | ok ys => rw [hzs] at h; cases h

theorem exFoldM_error_mem {σ α : Type} (f : σ → α → Except BuildError σ) :
    ∀ (l : List α) (s : σ) (e : BuildError), exFoldM f s l = .error e →
      ∃ s' x, x ∈ l ∧ f s' x = .error e := by
  intro l
  induction l with
  | nil => intro s e h; simp only [exFoldM] at h; cases h
  | cons z zs ih =>
    intro s e h
    simp only [exFoldM] at h
    cases hz : f s z with
    | error e' =>
      rw [hz] at h
      cases h
      exact ⟨s, z, List.mem_cons_self z zs, hz⟩
    | ok s' =>
      rw [hz] at h
      obtain ⟨s'', x, hx, hfx⟩ := ih s' e h
      exact ⟨s'', x, List.mem_cons_of_mem z hx, hfx⟩

theorem exFoldM_ok_forall {σ α : Type} (f : σ → α → Except BuildError σ) :
    ∀ (l : List α) (s s' : σ), exFoldM f s l = .ok s' →
      ∀ x ∈ l, ∃ s₁ s₂, f s₁ x = .ok s₂ := by
  intro l
  induction l with
  | nil => intro s s' h x hx; simp at hx
  | cons z zs ih =>
    intro s s' h x hx
    simp only [exFoldM] at h
    cases hz : f s z with
    | error e => rw [hz] at h; cases h
    | ok s₁ =>
      rw [hz] at h
      rcases List.mem_cons.mp hx with rfl | hx'
      · exact ⟨s, s₁, hz⟩
      · exact ih s₁ s' h x hx'

/-! ## Stage-1 output structure -/

theorem resolveAutosFrom_length :
    ∀ (specs : List (List InputStep)) (n : Int),
      (resolveAutosFrom specs n).length = specs.length := by
  intro specs
  induction specs with
  | nil => intro n; rfl
  | cons spec rest ih =>
    intro n
    simp only [resolveAutosFrom, List.length_cons]
    rw [ih]

theorem resolveAutosFrom_getD :
    ∀ (specs : List (List InputStep)) (n : Int) (i : Nat), i < specs.length →
      ∃ m, (resolveAutosFrom specs n).getD i [] =
        (specs.getD i []).map (fun st => resolve_step_auto st m) := by
  intro specs
  induction specs with
  | nil => intro n i h; simp at h
  | cons spec rest ih =>
    intro n i h
    cases i with
    | zero => exact ⟨n, rfl⟩
    | succ j =>
      simp only [resolveAutosFrom, List.getD_cons_succ]
      exact ih _ j (by simpa using h)

/-- Stage-1 resolution does not change which tags a spec references. -/
theorem refTags_map_auto (spec : List InputStep) (n : Int) :
    iter_referenced_tags (spec.map (fun st => resolve_step_auto st n)) =
      input_referenced_tags spec := by
  induction spec with
  | nil => rfl
  | cons st rest ih =>
    cases st with
    | atom a =>
      cases a <;>
        simp [iter_referenced_tags, input_referenced_tags, resolve_step_auto,
          resolve_atom_auto, atomReferencedTags, inputAtomReferencedTags,
          iter_referenced_tags] <;>
        simpa [iter_referenced_tags, input_referenced_tags] using ih
    | range s e =>
      have hs : atomReferencedTags (resolve_atom_auto s n) = inputAtomReferencedTags s := by
        cases s <;> rfl
      have he : atomReferencedTags (resolve_atom_auto e n) = inputAtomReferencedTags e := by
        cases e <;> rfl
      simp [iter_referenced_tags, input_referenced_tags, resolve_step_auto, hs, he]
      simpa [iter_referenced_tags, input_referenced_tags] using ih

theorem getD_zip {α β : Type} :
    ∀ (l1 : List α) (l2 : List β) (i : Nat) (d1 : α) (d2 : β),
      i < l1.length → i < l2.length →
      (l1.zip l2).getD i (d1, d2) = (l1.getD i d1, l2.getD i d2) := by
  intro l1
  induction l1 with
  | nil => intro l2 i d1 d2 h1 h2; simp at h1
  | cons x xs ih =>
    intro l2 i d1 d2 h1 h2
    cases l2 with
    | nil => simp at h2
    | cons y ys =>
      cases i with
      | zero => rfl
      | succ j =>
        simp only [List.zip_cons_cons, List.getD_cons_succ]
        exact ih ys j d1 d2 (by simpa using h1) (by simpa using h2)

/-! ## The unresolvable-identifier error -/

theorem tagToIndices_eq_nil_iff (ltd : List (List String × List String)) (t : String) :
    tagToIndices ltd t = [] ↔ ∀ i, i < ltd.length → t ∉ (ltd.getD i ([], [])).1 := by
  unfold tagToIndices
  rw [List.filter_eq_nil_iff]
  constructor
  · intro h i hi
    have := h i (List.mem_range.mpr hi)
    simpa using this
  · intro h i hi
    have := h i (List.mem_range.mp hi)
    simpa using this

theorem layerDepIndices_error (ltd : List (List String × List String)) (i : Nat)
    (e : BuildError) (h : layerDepIndices ltd i = .error e) :
    ∃ t, e = .identifierNotFound t i none ∧
      t ∈ (ltd.getD i ([], [])).2 ∧ tagToIndices ltd t = [] := by
  unfold layerDepIndices at h
  obtain ⟨acc, dep, hdep, hf⟩ := exFoldM_error_mem _ _ _ _ h
  cases hti : tagToIndices ltd dep with
  | nil =>
    rw [hti] at hf
    cases hf
    exact ⟨dep, rfl, hdep, hti⟩
  | cons j js =>
    rw [hti] at hf
    cases hf

theorem layerDepIndices_ok_forall (ltd : List (List String × List String)) (i : Nat)
    (r : List Nat) (h : layerDepIndices ltd i = .ok r) :
    ∀ t ∈ (ltd.getD i ([], [])).2, tagToIndices ltd t ≠ [] := by
  unfold layerDepIndices at h
  intro t ht hnil
  obtain ⟨s₁, s₂, hf⟩ := exFoldM_ok_forall _ _ _ _ h t ht
  rw [hnil] at hf
  cases hf

/-- **C3.**  If any layer's parsed spec references a tag that no layer
carries as a label, resolution raises an unresolvable-identifier error
carrying such a tag name and the index of a layer referencing it (the
orchestrator attaching that layer's original name string); the error already
arises from the Stage-2 dependency-ordering computation (before any tag
substitution), and the whole run returns an error, so no partial output is
produced. -/
theorem c3_unresolvable_tag :
    ∀ (names : List String) (ispecs : List (Option (List InputStep))),
      exMapM parse_build_specification names = .ok ispecs →
      (∃ i, i < names.length ∧ ∃ t,
        t ∈ input_referenced_tags ((ispecs.getD i none).getD []) ∧
        ∀ j, j < names.length → t ∉ parse_tags (names.getD j "")) →
      ∃ t' i', i' < names.length ∧
        t' ∈ input_referenced_tags ((ispecs.getD i' none).getD []) ∧
        (∀ j, j < names.length → t' ∉ parse_tags (names.getD j "")) ∧
        compute_tag_resolution_order
          ((names.map parse_tags).zip
            ((resolve_autos (ispecs.map (fun spec =>
              match spec with
              | some s => s
              | none => [Step.range InputAtom.Start InputAtom.End]))).map
              (fun spec => dedupFirst (iter_referenced_tags spec)))) =
          .error (.identifierNotFound t' i' none) ∧
        evaluate_build_steps names =
          .error (.identifierNotFound t' i' (some (names.getD i' ""))) := by
  intro names ispecs hp hmissing
  obtain ⟨i, hi, t, htmem, htunbound⟩ := hmissing
  have hlen_ispecs : ispecs.length = names.length := exMapM_ok_length _ _ _ hp
  have hlen_eff : (ispecs.map (fun spec =>
      match spec with
      | some s => s
      | none => [Step.range InputAtom.Start InputAtom.End])).length = names.length := by
    simp [hlen_ispecs]
  have hlen_s1 : (resolve_autos (ispecs.map (fun spec =>
      match spec with
      | some s => s
      | none => [Step.range InputAtom.Start InputAtom.End]))).length = names.length := by
    unfold resolve_autos
    rw [resolveAutosFrom_length]
    exact hlen_eff
  have hlen_tags : (names.map parse_tags).length = names.length := by simp
  have hlen_ltd : ((names.map parse_tags).zip
      ((resolve_autos (ispecs.map (fun spec =>
        match spec with
        | some s => s
        | none => [Step.range InputAtom.Start InputAtom.End]))).map
        (fun spec => dedupFirst (iter_referenced_tags spec)))).length = names.length := by
    simp [hlen_s1]
  -- Identify the two projections of the zipped per-layer data.
  have hfst : ∀ j, j < names.length →
      (((names.map parse_tags).zip
        ((resolve_autos (ispecs.map (fun spec =>
          match spec with
          | some s => s
          | none => [Step.range InputAtom.Start InputAtom.End]))).map
          (fun spec => dedupFirst (iter_referenced_tags spec)))).getD j ([], [])).1 =
      parse_tags (names.getD j "") := by
    intro j hj
    rw [getD_zip _ _ j [] [] (by omega) (by simp [hlen_s1]; omega)]
    exact getD_map parse_tags names j "" [] hj
  have hsnd : ∀ j, j < names.length →
      ∃ tags : List String,
        (((names.map parse_tags).zip
          ((resolve_autos (ispecs.map (fun spec =>
            match spec with
            | some s => s
            | none => [Step.range InputAtom.Start InputAtom.End]))).map
            (fun spec => dedupFirst (iter_referenced_tags spec)))).getD j ([], [])).2 = tags ∧
        (∀ u, u ∈ tags ↔ u ∈ input_referenced_tags ((ispecs.getD j none).getD [])) := by
    intro j hj
    rw [getD_zip _ _ j [] [] (by omega) (by simp [hlen_s1]; omega)]
    rw [getD_map (fun spec => dedupFirst (iter_referenced_tags spec)) _ j [] [] (by omega)]
    obtain ⟨m, hm⟩ := resolveAutosFrom_getD (ispecs.map (fun spec =>
      match spec with
      | some s => s
      | none => [Step.range InputAtom.Start InputAtom.End])) 0 j (by omega)
    refine ⟨_, rfl, fun u => ?_⟩
    unfold resolve_autos
    rw [hm, refTags_map_auto]
    rw [getD_map (fun spec =>
      match spec with
      | some s => s
      | none => [Step.range InputAtom.Start InputAtom.End]) ispecs j none [] (by omega)]
    rw [mem_dedupFirst]
    cases ispecs.getD j none with
    | some s => exact Iff.rfl
    | none => exact Iff.rfl
  -- The tag `t` is a dependency of layer `i` in the zipped data, and unbound.
  have hunbound_ltd : tagToIndices
      ((names.map parse_tags).zip
        ((resolve_autos (ispecs.map (fun spec =>
          match spec with
          | some s => s
          | none => [Step.range InputAtom.Start InputAtom.End]))).map
          (fun spec => dedupFirst (iter_referenced_tags spec)))) t = [] := by
    rw [tagToIndices_eq_nil_iff]
    intro j hj
    rw [hfst j (by omega)]
    exact htunbound j (by omega)
  have hdep_i : t ∈ (((names.map parse_tags).zip
      ((resolve_autos (ispecs.map (fun spec =>
        match spec with
        | some s => s
        | none => [Step.range InputAtom.Start InputAtom.End]))).map
        (fun spec => dedupFirst (iter_referenced_tags spec)))).getD i ([], [])).2 := by
    obtain ⟨tags, htags, hiff⟩ := hsnd i hi
    rw [htags]
    exact (hiff t).mpr htmem
  -- The dependency-graph construction must fail.
  cases hmap : exMapM (fun k => layerDepIndices
      ((names.map parse_tags).zip
        ((resolve_autos (ispecs.map (fun spec =>
          match spec with
          | some s => s
          | none => [Step.range InputAtom.Start InputAtom.End]))).map
          (fun spec => dedupFirst (iter_referenced_tags spec)))) k)
      (List.range ((names.map parse_tags).zip
        ((resolve_autos (ispecs.map (fun spec =>
          match spec with
          | some s => s
          | none => [Step.range InputAtom.Start InputAtom.End]))).map
          (fun spec => dedupFirst (iter_referenced_tags spec)))).length) with
  | ok depIdx =>
    exfalso
    have hmem_i : i ∈ List.range ((names.map parse_tags).zip
        ((resolve_autos (ispecs.map (fun spec =>
          match spec with
          | some s => s
          | none => [Step.range InputAtom.Start InputAtom.End]))).map
          (fun spec => dedupFirst (iter_referenced_tags spec)))).length := by
      rw [List.mem_range, hlen_ltd]
      exact hi
    obtain ⟨y, hy⟩ := exMapM_ok_forall _ _ _ hmap i hmem_i
    exact layerDepIndices_ok_forall _ _ _ hy t hdep_i hunbound_ltd
  | error e =>
    obtain ⟨x, hxmem, hx⟩ := exMapM_error_mem _ _ _ hmap
    obtain ⟨t', ht'e, ht'dep, ht'unbound⟩ := layerDepIndices_error _ _ _ hx
    have hx_lt : x < names.length := by
      rw [List.mem_range] at hxmem
      omega
    subst ht'e
    have ht'mem : t' ∈ input_referenced_tags ((ispecs.getD x none).getD []) := by
      obtain ⟨tags, htags, hiff⟩ := hsnd x hx_lt
      rw [htags] at ht'dep
      exact (hiff t').mp ht'dep
    have ht'unb : ∀ j, j < names.length → t' ∉ parse_tags (names.getD j "") := by
      intro j hj
      have := (tagToIndices_eq_nil_iff _ t').mp ht'unbound j (by omega)
      rwa [hfst j hj] at this
    have hcompute : compute_tag_resolution_order
        ((names.map parse_tags).zip
          ((resolve_autos (ispecs.map (fun spec =>
            match spec with
            | some s => s
            | none => [Step.range InputAtom.Start InputAtom.End]))).map
            (fun spec => dedupFirst (iter_referenced_tags spec)))) =
        .error (.identifierNotFound t' x none) := by
      unfold compute_tag_resolution_order
      rw [hmap]
    have hres : resolve_tags (names.map parse_tags)
        (resolve_autos (ispecs.map (fun spec =>
          match spec with
          | some s => s
          | none => [Step.range InputAtom.Start InputAtom.End]))) =
        .error (.identifierNotFound t' x none) := by
      unfold resolve_tags
      rw [hcompute]
    refine ⟨t', x, hx_lt, ht'mem, ht'unb, hcompute, ?_⟩
    unfold evaluate_build_steps
    rw [hp]
    dsimp only
    rw [hres]

/-- Witness for the unresolvable-tag claim, at the one-layer deck
`["X <@ghost>"]`. -/
theorem c3_unresolvable_tag_witness :
    ∃ t' i', i' < (["X <@ghost>"] : List String).length ∧
      t' ∈ input_referenced_tags
        ((([some [Step.atom (InputAtom.Tag "ghost")]] :
            List (Option (List InputStep))).getD i' none).getD []) ∧
      (∀ j, j < (["X <@ghost>"] : List String).length →
        t' ∉ parse_tags ((["X <@ghost>"] : List String).getD j "")) ∧
      compute_tag_resolution_order
        (((["X <@ghost>"] : List String).map parse_tags).zip
          ((resolve_autos (([some [Step.atom (InputAtom.Tag "ghost")]] :
            List (Option (List InputStep))).map (fun spec =>
            match spec with
            | some s => s
            | none => [Step.range InputAtom.Start InputAtom.End]))).map
            (fun spec => dedupFirst (iter_referenced_tags spec)))) =
        .error (.identifierNotFound t' i' none) ∧
      evaluate_build_steps ["X <@ghost>"] =
        .error (.identifierNotFound t' i'
          (some ((["X <@ghost>"] : List String).getD i' ""))) :=
  c3_unresolvable_tag ["X <@ghost>"] [some [Step.atom (InputAtom.Tag "ghost")]]
    (by rfl)
    ⟨0, by decide, "ghost", by simp [input_referenced_tags, inputAtomReferencedTags],
      by
        intro j hj
        simp only [List.length_singleton] at hj
        have hj0 : j = 0 := by omega
        subst hj0
        decide⟩

/-! ## The unreachable branches of Stage 2 are in fact unreachable -/

/-- With a whitelisted suffix, `resolve_tag_suffix` either succeeds or (in
the type-theoretically visible but never-taken empty-flattening case) fails
with the internal marker — never with the `NotImplementedError` branch. -/
theorem resolve_tag_suffix_shape (spec : List Stage2Step) (sfx : String)
    (h : sfx ∈ allowedSuffixes) :
    (∃ r, resolve_tag_suffix spec sfx = .ok r) ∨
      resolve_tag_suffix spec sfx = .error .internalError := by
  simp only [allowedSuffixes, List.mem_cons, List.not_mem_nil, or_false] at h
  unfold resolve_tag_suffix
  rcases h with rfl | rfl | rfl | rfl <;>
    · cases spec with
      | nil => exact .inl ⟨none, rfl⟩
      | cons st rest =>
        cases hf : flattenSpec (st :: rest) with
        | nil => exact .inr rfl
        | cons x xs => exact .inl ⟨_, rfl⟩

/-- A range side always resolves to at most one atom. -/
theorem resolve_range_side_length (a : Stage1Atom) (tags : TagMap) (d : String)
    (r : List Stage2Atom) (h : resolve_range_side a tags d = .ok r) : r.length ≤ 1 := by
  unfold resolve_range_side at h
  cases a with
  | Tag t =>
    dsimp only at h
    cases hts : resolve_tag_suffix (lookupTag tags t) d with
    | error e => rw [hts] at h; cases h
    | ok o =>
      rw [hts] at h
      cases o with
      | none => cases h; simp
      | some v => cases h; simp
  | TagSuffix t sfx =>
    dsimp only at h
    cases hts : resolve_tag_suffix (lookupTag tags t) sfx with
    | error e => rw [hts] at h; cases h
    | ok o =>
      rw [hts] at h
      cases o with
      | none => cases h; simp
      | some v => cases h; simp
  | Num n => cases h; simp
  | Start => cases h; simp
  | End => cases h; simp

/-- A well-formed range side either resolves to at most one atom or fails
with the internal marker. -/
theorem resolve_range_side_shape (a : Stage1Atom) (tags : TagMap) (d : String)
    (ha : Stage1AtomWf a) (hd : d ∈ allowedSuffixes) :
    (∃ r, resolve_range_side a tags d = .ok r ∧ r.length ≤ 1) ∨
      resolve_range_side a tags d = .error .internalError := by
  cases a with
  | Tag t =>
    rcases resolve_tag_suffix_shape (lookupTag tags t) d hd with ⟨o, ho⟩ | ho
    · refine .inl ?_
      cases o with
      | none => exact ⟨[], by unfold resolve_range_side; dsimp only; rw [ho], by simp⟩
      | some v => exact ⟨[v], by unfold resolve_range_side; dsimp only; rw [ho], by simp⟩
    · exact .inr (by unfold resolve_range_side; dsimp only; rw [ho])
  | TagSuffix t sfx =>
    have hsfx : sfx ∈ allowedSuffixes := ha
    rcases resolve_tag_suffix_shape (lookupTag tags t) sfx hsfx with ⟨o, ho⟩ | ho
    · refine .inl ?_
      cases o with
      | none => exact ⟨[], by unfold resolve_range_side; dsimp only; rw [ho], by simp⟩
      | some v => exact ⟨[v], by unfold resolve_range_side; dsimp only; rw [ho], by simp⟩
    · exact .inr (by unfold resolve_range_side; dsimp only; rw [ho])
  | Num n => exact .inl ⟨[.Num n], rfl, by simp⟩
  | Start => exact .inl ⟨[.Start], rfl, by simp⟩
  | End => exact .inl ⟨[.End], rfl, by simp⟩

/-- A well-formed step either resolves or fails with the internal marker:
the `assert` branch and the `NotImplementedError` branch are never taken. -/
theorem resolve_step_tag_shape (st : Stage1Step) (tags : TagMap)
    (hst : Stage1StepWf st) :
    (∃ r, resolve_step_tag st tags = .ok r) ∨
      resolve_step_tag st tags = .error .internalError := by
  cases st with
  | atom a =>
    cases a with
    | Tag t => exact .inl ⟨_, rfl⟩
    | TagSuffix t sfx =>
      have hsfx : sfx ∈ allowedSuffixes := hst
      rcases resolve_tag_suffix_shape (lookupTag tags t) sfx hsfx with ⟨o, ho⟩ | ho
      · cases o with
        | none => exact .inl ⟨[], by unfold resolve_step_tag; dsimp only; rw [ho]⟩
        | some v => exact .inl ⟨[.atom v], by unfold resolve_step_tag; dsimp only; rw [ho]⟩
      · exact .inr (by unfold resolve_step_tag; dsimp only; rw [ho])
    | Num n => exact .inl ⟨_, rfl⟩
    | Start => exact .inl ⟨_, rfl⟩
    | End => exact .inl ⟨_, rfl⟩
  | range s e =>
    obtain ⟨hs, he⟩ := hst
    have hstart : ("start" : String) ∈ allowedSuffixes := by decide
    have hend : ("end" : String) ∈ allowedSuffixes := by decide
    rcases resolve_range_side_shape s tags "start" hs hstart with ⟨ns, hns, hnslen⟩ | hns
    · rcases resolve_range_side_shape e tags "end" he hend with ⟨ne, hne, hnelen⟩ | hne
      · refine .inl ?_
        cases ns with
        | nil =>
          cases ne with
          | nil => exact ⟨[], by unfold resolve_step_tag; dsimp only; rw [hns, hne]⟩
          | cons e1 es =>
            exact ⟨[], by unfold resolve_step_tag; dsimp only; rw [hns, hne]⟩
        | cons s1 ss =>
          cases ss with
          | cons s2 ss' => exact absurd hnslen (by simp)
          | nil =>
            cases ne with
            | nil => exact ⟨[], by unfold resolve_step_tag; dsimp only; rw [hns, hne]⟩
            | cons e1 es =>
              cases es with
              | cons e2 es' => exact absurd hnelen (by simp)
              | nil =>
                exact ⟨[.range s1 e1], by unfold resolve_step_tag; dsimp only; rw [hns, hne]⟩
      · exact .inr (by unfold resolve_step_tag; dsimp only; rw [hns, hne])
    · exact .inr (by unfold resolve_step_tag; dsimp only; rw [hns])

/-! ## The parser only emits whitelisted suffixes -/

theorem exMapM_ok_mem {α β : Type} (f : α → Except BuildError β) :
    ∀ (l : List α) (r : List β), exMapM f l = .ok r →
      ∀ y ∈ r, ∃ x ∈ l, f x = .ok y := by
  intro l
  induction l with
  | nil =>
    intro r h y hy
    simp only [exMapM] at h
    cases h
    simp at hy
  | cons z zs ih =>
    intro r h y hy
    simp only [exMapM] at h
    cases hz : f z with
    | error e => rw [hz] at h; cases h
    | ok w =>
      rw [hz] at h
      cases hzs : exMapM f zs with
      | error e => rw [hzs] at h; cases h
      | ok ws =>
        rw [hzs] at h
        cases h
        rcases List.mem_cons.mp hy with rfl | hy'
        · exact ⟨z, List.mem_cons_self z zs, hz⟩
        · obtain ⟨x, hx, hfx⟩ := ih ws hzs y hy'
          exact ⟨x, List.mem_cons_of_mem z hx, hfx⟩

theorem getD_mem_or_default {α : Type} :
    ∀ (l : List α) (i : Nat) (d : α), l.getD i d ∈ l ∨ l.getD i d = d := by
  intro l
  induction l with
  | nil => intro i d; exact .inr (by simp)
  | cons x xs ih =>
    intro i d
    cases i with
    | zero => exact .inl (List.mem_cons_self x xs)
    | succ j =>
      rcases ih j d with h | h
      · exact .inl (List.mem_cons_of_mem x (by simpa using h))
      · exact .inr (by simpa using h)

theorem parseStepFallback_wf (s : List Char) (d : Option InputAtom) (a : InputAtom)
    (hd : ∀ v, d = some v → InputAtomWf v)
    (h : parseStepFallback s d = .ok a) : InputAtomWf a := by
  unfold parseStepFallback at h
  split at h
  · cases h; trivial
  · split at h
    · cases h; trivial
    · split at h
      · cases d with
        | some v => cases h; exact hd _ rfl
        | none => cases h
      · split at h
        · cases h; trivial
        · cases h

theorem parse_build_specification_step_wf (s : List Char) (d : Option InputAtom)
    (a : InputAtom) (hd : ∀ v, d = some v → InputAtomWf v)
    (h : parse_build_specification_step s d = .ok a) : InputAtomWf a := by
  unfold parse_build_specification_step at h
  split at h
  · split at h
    · split at h
      · split at h
        · rename_i hmem
          cases h
          exact hmem
        · cases h
      · cases h; trivial
    · exact parseStepFallback_wf _ _ _ hd h
  · exact parseStepFallback_wf _ _ _ hd h

theorem parseStepOrRange_wf (piece : List Char) (st : InputStep)
    (h : parseStepOrRange piece = .ok st) : InputStepWf st := by
  unfold parseStepOrRange at h
  split at h
  · cases ha : parse_build_specification_step (splitFirstDash piece).1 (some .Start) with
    | error e => rw [ha] at h; cases h
    | ok a =>
      rw [ha] at h
      cases hb : parse_build_specification_step (splitFirstDash piece).2 (some .End) with
      | error e => rw [hb] at h; cases h
      | ok b =>
        rw [hb] at h
        cases h
        exact ⟨parse_build_specification_step_wf _ _ _
            (fun v hv => by cases hv; trivial) ha,
          parse_build_specification_step_wf _ _ _
            (fun v hv => by cases hv; trivial) hb⟩
  · cases ha : parse_build_specification_step piece none with
    | error e => rw [ha] at h; cases h
    | ok a =>
      rw [ha] at h
      cases h
      exact parse_build_specification_step_wf _ _ _ (fun v hv => by cases hv) ha

theorem parseBracketContents_wf (inner : List Char) (r : List InputStep)
    (h : parseBracketContents inner = .ok r) : ∀ st ∈ r, InputStepWf st := by
  unfold parseBracketContents at h
  split at h
  · cases h
    intro st hst
    simp at hst
  · intro st hst
    obtain ⟨x, hx, hfx⟩ := exMapM_ok_mem _ _ _ h st hst
    exact parseStepOrRange_wf _ _ hfx

theorem parse_build_specification_wf (name : String) (spec : List InputStep)
    (h : parse_build_specification name = .ok (some spec)) :
    ∀ st ∈ spec, InputStepWf st := by
  unfold parse_build_specification at h
  split at h
  · simp at h
  · split at h
    · cases h
    · rename_i specs hspecs
      have hflat := Option.some.inj (Except.ok.inj h)
      intro st hst
      rw [← hflat] at hst
      obtain ⟨l, hl, hstl⟩ := List.mem_flatten.mp hst
      obtain ⟨inner, hinner, hfi⟩ := exMapM_ok_mem _ _ _ hspecs l hl
      exact parseBracketContents_wf _ _ hfi st hstl

theorem resolve_atom_auto_wf (a : InputAtom) (n : Int) (h : InputAtomWf a) :
    Stage1AtomWf (resolve_atom_auto a n) := by
  cases a <;> trivial

theorem resolve_step_auto_wf (st : InputStep) (n : Int) (h : InputStepWf st) :
    Stage1StepWf (resolve_step_auto st n) := by
  cases st with
  | atom a => exact resolve_atom_auto_wf a n h
  | range s e => exact ⟨resolve_atom_auto_wf s n h.1, resolve_atom_auto_wf e n h.2⟩

theorem resolveAutosFrom_wf :
    ∀ (specs : List (List InputStep)) (n : Int),
      (∀ sp ∈ specs, ∀ st ∈ sp, InputStepWf st) →
      ∀ sp' ∈ resolveAutosFrom specs n, ∀ st' ∈ sp', Stage1StepWf st' := by
  intro specs
  induction specs with
  | nil => intro n h sp' hsp'; simp [resolveAutosFrom] at hsp'
  | cons spec rest ih =>
    intro n h sp' hsp'
    simp only [resolveAutosFrom] at hsp'
    rcases List.mem_cons.mp hsp' with rfl | hsp''
    · intro st' hst'
      obtain ⟨st, hst, rfl⟩ := List.mem_map.mp hst'
      exact resolve_step_auto_wf st n (h spec (List.mem_cons_self _ _) st hst)
    · exact ih _ (fun sp hsp => h sp (List.mem_cons_of_mem _ hsp)) sp' hsp''

/-- The Stage-1 specs fed into tag resolution by the orchestrator are all
well-formed. -/
theorem s1_specs_wf (names : List String) (ispecs : List (Option (List InputStep)))
    (hp : exMapM parse_build_specification names = .ok ispecs) :
    ∀ sp ∈ resolve_autos (ispecs.map (fun spec =>
      match spec with
      | some s => s
      | none => [Step.range InputAtom.Start InputAtom.End])),
      ∀ st ∈ sp, Stage1StepWf st := by
  apply resolveAutosFrom_wf
  intro sp hsp st hst
  obtain ⟨o, ho, rfl⟩ := List.mem_map.mp hsp
  obtain ⟨name, hname, hfn⟩ := exMapM_ok_mem _ _ _ hp o ho
  cases o with
  | some s => exact parse_build_specification_wf name s hfn st hst
  | none =>
    simp only [List.mem_singleton] at hst
    subst hst
    exact ⟨trivial, trivial⟩

/-! ## Every error the pipeline can produce is benign -/

theorem benign_invalidStep (s : String) : benignError (.invalidStep s) :=
  ⟨fun _ h => BuildError.noConfusion h, fun h => BuildError.noConfusion h⟩

theorem benign_unexpectedTagSuffix (s : String) : benignError (.unexpectedTagSuffix s) :=
  ⟨fun _ h => BuildError.noConfusion h, fun h => BuildError.noConfusion h⟩

theorem benign_identifierNotFound (t : String) (i : Nat) (nm : Option String) :
    benignError (.identifierNotFound t i nm) :=
  ⟨fun _ h => BuildError.noConfusion h, fun h => BuildError.noConfusion h⟩

theorem benign_cyclicDependency (idxs : List Nat) (nms : Option (List String)) :
    benignError (.cyclicDependency idxs nms) :=
  ⟨fun _ h => BuildError.noConfusion h, fun h => BuildError.noConfusion h⟩

theorem benign_internalError : benignError .internalError :=
  ⟨fun _ h => BuildError.noConfusion h, fun h => BuildError.noConfusion h⟩

theorem benign_fuelExhausted : benignError .fuelExhausted :=
  ⟨fun _ h => BuildError.noConfusion h, fun h => BuildError.noConfusion h⟩

theorem parseStepFallback_error_benign (s : List Char) (d : Option InputAtom)
    (e : BuildError) (h : parseStepFallback s d = .error e) : benignError e := by
  unfold parseStepFallback at h
  split at h
  · cases h
  · split at h
    · cases h
    · split at h
      · cases d with
        | some v => cases h
        | none => cases h; exact benign_invalidStep _
      · split at h
        · cases h
        · cases h
          exact benign_invalidStep _

theorem parse_build_specification_step_error_benign (s : List Char)
    (d : Option InputAtom) (e : BuildError)
    (h : parse_build_specification_step s d = .error e) : benignError e := by
  unfold parse_build_specification_step at h
  split at h
  · split at h
    · split at h
      · split at h
        · cases h
        · cases h
          exact benign_unexpectedTagSuffix _
      · cases h
    · exact parseStepFallback_error_benign _ _ _ h
  · exact parseStepFallback_error_benign _ _ _ h

theorem parseStepOrRange_error_benign (piece : List Char) (e : BuildError)
    (h : parseStepOrRange piece = .error e) : benignError e := by
  unfold parseStepOrRange at h
  split at h
  · cases ha : parse_build_specification_step (splitFirstDash piece).1 (some .Start) with
    | error e' =>
      rw [ha] at h
      cases h
      exact parse_build_specification_step_error_benign _ _ _ ha
    | ok a =>
      rw [ha] at h
      cases hb : parse_build_specification_step (splitFirstDash piece).2 (some .End) with
      | error e' =>
        rw [hb] at h
        cases h
        exact parse_build_specification_step_error_benign _ _ _ hb
      | ok b => rw [hb] at h; cases h
  · cases ha : parse_build_specification_step piece none with
    | error e' =>
      rw [ha] at h
      cases h
      exact parse_build_specification_step_error_benign _ _ _ ha
    | ok a => rw [ha] at h; cases h

theorem parseBracketContents_error_benign (inner : List Char) (e : BuildError)
    (h : parseBracketContents inner = .error e) : benignError e := by
  unfold parseBracketContents at h
  split at h
  · cases h
  · obtain ⟨x, _, hfx⟩ := exMapM_error_mem _ _ _ h
    exact parseStepOrRange_error_benign _ _ hfx

theorem parse_build_specification_error_benign (name : String) (e : BuildError)
    (h : parse_build_specification name = .error e) : benignError e := by
  unfold parse_build_specification at h
  split at h
  · cases h
  · split at h
    · cases h
      rename_i hspecs
      obtain ⟨x, _, hfx⟩ := exMapM_error_mem _ _ _ hspecs
      exact parseBracketContents_error_benign _ _ hfx
    · cases h

theorem resolveOne_error_benign (depIdx : List (List Nat)) :
    ∀ (fuel idx : Nat) (visited ordering : List Nat) (e : BuildError),
      resolveOne depIdx fuel idx visited ordering = .error e → benignError e := by
  intro fuel
  induction fuel with
  | zero =>
    intro idx visited ordering e h
    simp only [resolveOne] at h
    cases h
    exact benign_fuelExhausted
  | succ n ih =>
    intro idx visited ordering e h
    simp only [resolveOne] at h
    split at h
    · cases h
    · split at h
      · cases h
        exact benign_cyclicDependency _ _
      · split at h
        · cases h
          rename_i hfold
          obtain ⟨s', x, _, hfx⟩ := exFoldM_error_mem _ _ _ _ hfold
          exact ih x (visited ++ [idx]) s' _ hfx
        · cases h

theorem compute_tag_resolution_order_error_benign
    (ltd : List (List String × List String)) (e : BuildError)
    (h : compute_tag_resolution_order ltd = .error e) : benignError e := by
  unfold compute_tag_resolution_order at h
  split at h
  · cases h
    rename_i hmap
    obtain ⟨x, _, hfx⟩ := exMapM_error_mem _ _ _ hmap
    obtain ⟨t, rfl, _, _⟩ := layerDepIndices_error _ _ _ hfx
    exact benign_identifierNotFound _ _ _
  · obtain ⟨s', x, _, hfx⟩ := exFoldM_error_mem _ _ _ _ h
    exact resolveOne_error_benign _ _ _ _ _ _ hfx

theorem resolveTagsLoop_error_benign (layerTags : List (List String))
    (layerSpecs : List (List Stage1Step))
    (hwf : ∀ sp ∈ layerSpecs, ∀ st ∈ sp, Stage1StepWf st) :
    ∀ (order : List Nat) (rs : List (Nat × List Stage2Step)) (rt : TagMap)
      (e : BuildError),
      resolveTagsLoop layerTags layerSpecs order rs rt = .error e → benignError e := by
  intro order
  induction order with
  | nil =>
    intro rs rt e h
    simp only [resolveTagsLoop] at h
    cases h
  | cons idx rest ih =>
    intro rs rt e h
    simp only [resolveTagsLoop] at h
    split at h
    · cases h
      rename_i hmap
      obtain ⟨st, hst, hfst⟩ := exMapM_error_mem _ _ _ hmap
      have hstwf : Stage1StepWf st := by
        rcases getD_mem_or_default layerSpecs idx [] with hmem | hdef
        · exact hwf _ hmem st hst
        · rw [hdef] at hst
          simp at hst
      rcases resolve_step_tag_shape st rt hstwf with ⟨r, hr⟩ | hr
      · rw [hr] at hfst; cases hfst
      · rw [hr] at hfst
        cases hfst
        exact benign_internalError
    · exact ih _ _ _ h

theorem resolve_tags_error_benign (layerTags : List (List String))
    (layerSpecs : List (List Stage1Step)) (e : BuildError)
    (hwf : ∀ sp ∈ layerSpecs, ∀ st ∈ sp, Stage1StepWf st)
    (h : resolve_tags layerTags layerSpecs = .error e) : benignError e := by
  unfold resolve_tags at h
  split at h
  · cases h
    rename_i hcomp
    exact compute_tag_resolution_order_error_benign _ _ hcomp
  · split at h
    · cases h
      rename_i hloop
      exact resolveTagsLoop_error_benign _ _ hwf _ _ _ _ hloop
    · obtain ⟨i, _, hfi⟩ := exMapM_error_mem _ _ _ h
      cases hlk : lookupResolved _ i with
      | some v => rw [hlk] at hfi; cases hfi
      | none =>
        rw [hlk] at hfi
        cases hfi
        exact benign_internalError

theorem evaluate_error_benign (names : List String) (e : BuildError)
    (h : evaluate_build_steps names = .error e) : benignError e := by
  unfold evaluate_build_steps at h
  split at h
  · cases h
    rename_i hp
    obtain ⟨name, _, hfn⟩ := exMapM_error_mem _ _ _ hp
    exact parse_build_specification_error_benign _ _ hfn
  · rename_i ispecs hp
    split at h
    · cases h
      exact benign_identifierNotFound _ _ _
    · cases h
      exact benign_cyclicDependency _ _
    · cases h
      exact resolve_tags_error_benign _ _ _ (s1_specs_wf names ispecs hp) (by assumption)
    · cases h

/-- **C10.**  During tag resolution each side of a range resolves to at most
one atom, so the internal assertions of `resolve_step_tag` never fail; and
the annotation parser only ever emits the suffixes `before`, `start`, `end`,
`after` (range defaulting adds only `start`/`end`), so the
"should be unreachable" `NotImplementedError` branch of `resolve_tag_suffix`
is never taken: on no input does the resolver produce either failure. -/
theorem c10_internal_safety :
    (∀ (names : List String) (u : String),
      evaluate_build_steps names ≠ .error (.notImplemented u) ∧
      evaluate_build_steps names ≠ .error .assertionFailed) ∧
    (∀ (a : Stage1Atom) (tags : TagMap) (d : String) (r : List Stage2Atom),
      resolve_range_side a tags d = .ok r → r.length ≤ 1) ∧
    (∀ (s : List Char) (d : Option InputAtom) (a : InputAtom),
      (∀ v, d = some v → InputAtomWf v) →
      parse_build_specification_step s d = .ok a → InputAtomWf a) := by
  refine ⟨fun names u => ⟨fun hcontra => ?_, fun hcontra => ?_⟩,
    resolve_range_side_length,
    fun s d a hd h => parse_build_specification_step_wf s d a hd h⟩
  · exact (evaluate_error_benign names _ hcontra).1 u rfl
  · exact (evaluate_error_benign names _ hcontra).2 rfl

/-- Witness for the hypothesis-bearing parts of the internal-safety claim. -/
theorem c10_internal_safety_witness :
    ([Stage2Atom.Num 5] : List Stage2Atom).length ≤ 1 ∧
    InputAtomWf (InputAtom.TagSuffix "a" "start") :=
  ⟨c10_internal_safety.2.1 (.Num 5) [] "start" [.Num 5] rfl,
   c10_internal_safety.2.2 ['@', 'a', '.', 's', 't', 'a', 'r', 't'] none
     (.TagSuffix "a" "start") (fun v hv => Option.noConfusion hv) rfl⟩

end Slidie
